import Mathlib

/-!
Verification of the correlation & ranking engine of the sp500-network-analysis
repository.  Each Python routine of the core (src/analysis/stock_analyzer.py,
src/analysis/correlation_calculator.py, src/analysis/sharpe_ratio_calculator.py,
src/network/correlation_network.py) is shallowly embedded as an executable
Lean definition; scores are modelled as rationals.

Heap modelling note.  The Python code uses `heapq` only through the operations
`heappush`, `heappushpop`, reading the minimum `heap[0]`, and finally either
`sorted(heap)` or popping every element.  All of those observations depend only
on the multiset of heap contents and on its minimum, so a binary min-heap is
modelled extensionally by the sorted list of its contents: `heap[0]` is the
head, `heappush` is ordered insertion, `heappushpop` (in the branch the code
takes, where the new score strictly exceeds the minimum score) replaces the
head, and draining by successive `heappop` yields the sorted list itself.
Heap entries are tuples compared lexicographically, exactly as Python compares
tuples; the entries pushed by the code always carry pairwise distinct ticker
names, so the pop order is the unique sorted arrangement.
-/

namespace SP500

/-- A heap entry as pushed by the Python code: a `(score, ticker)` tuple.
Python orders such tuples lexicographically. -/
abbrev Entry := ℚ × String

/-- Lexicographic order on `(score, ticker)` tuples, as Python compares the
tuples stored in the heaps. -/
def entryLE (a b : Entry) : Prop :=
  a.1 < b.1 ∨ (a.1 = b.1 ∧ a.2 ≤ b.2)

/-- The reversed (descending) order on heap entries, used for
`sorted(min_heap, reverse=True)`. -/
def entryGE (a b : Entry) : Prop := entryLE b a

instance : DecidableRel entryLE := fun a b => by
  unfold entryLE; exact inferInstance

instance : DecidableRel entryGE := fun a b => by
  unfold entryGE; exact inferInstance

instance : IsTotal Entry entryLE := by
  constructor
  intro a b
  rcases lt_trichotomy a.1 b.1 with h | h | h
  · exact Or.inl (Or.inl h)
  · rcases le_total a.2 b.2 with h2 | h2
    · exact Or.inl (Or.inr ⟨h, h2⟩)
    · exact Or.inr (Or.inr ⟨h.symm, h2⟩)
  · exact Or.inr (Or.inl h)

instance : IsTrans Entry entryLE := by
  constructor
  intro a b c hab hbc
  rcases hab with h1 | ⟨h1, h1'⟩
  · rcases hbc with h2 | ⟨h2, _⟩
    · exact Or.inl (h1.trans h2)
    · exact Or.inl (h2 ▸ h1)
  · rcases hbc with h2 | ⟨h2, h2'⟩
    · exact Or.inl (h1 ▸ h2)
    · exact Or.inr ⟨h1.trans h2, h1'.trans h2'⟩

instance : IsAntisymm Entry entryLE := by
  constructor
  intro a b hab hba
  rcases hab with h1 | ⟨h1, h1'⟩
  · rcases hba with h2 | ⟨h2, _⟩
    · exact absurd (h1.trans h2) (lt_irrefl _)
    · exact absurd h1 (h2 ▸ lt_irrefl _)
  · rcases hba with h2 | ⟨_, h2'⟩
    · exact absurd h2 (h1 ▸ lt_irrefl _)
    · exact Prod.ext h1 (le_antisymm h1' h2')

instance : IsTotal Entry entryGE := by
  constructor
  intro a b
  unfold entryGE
  exact IsTotal.total (r := entryLE) b a

instance : IsTrans Entry entryGE := by
  constructor
  intro a b c hab hbc
  unfold entryGE at *
  exact IsTrans.trans (r := entryLE) _ _ _ hbc hab

instance : IsAntisymm Entry entryGE := by
  constructor
  intro a b hab hba
  unfold entryGE at *
  exact IsAntisymm.antisymm (r := entryLE) a b hba hab

/-- Score-descending comparison on `(ticker, score)` pairs, used to model the
Python stable sorts `sort_values(ascending=False)`, `nlargest`, and
`sort(key=lambda x: x[1], reverse=True)`, all of which compare scores only. -/
def scoreGE (a b : String × ℚ) : Prop := b.2 ≤ a.2

instance : DecidableRel scoreGE := fun a b => by
  unfold scoreGE; exact inferInstance

instance : IsTotal (String × ℚ) scoreGE := ⟨fun a b => le_total b.2 a.2⟩

instance : IsTrans (String × ℚ) scoreGE := ⟨fun _ _ _ h1 h2 => h2.trans h1⟩

/-! ## Order-statistics ranker (src/analysis/stock_analyzer.py)

`topk_stocks` streams `(ticker, total_return)` items into a min-heap of (score,
ticker) tuples bounded by `k_stocks`; when the heap is full and the incoming
score strictly exceeds the minimum score `min_heap[0][0]`, the minimum is
evicted via `heappushpop`.  The final answer is `sorted(min_heap,
reverse=True)`.  When `k_stocks = 0` and an item arrives, the Python
expression `min_heap[0]` indexes an empty list and raises `IndexError`; the
model returns `none` there. -/

/-- One loop iteration of `StockAnalyzer.topk_stocks` over an incoming heap
entry `e = (total_return, ticker)`. -/
def topkStep (k : ℕ) (h : List Entry) (e : Entry) : Option (List Entry) :=
  if h.length < k then
    some (List.orderedInsert entryLE e h)
  else
    match h with
    | [] => none
    | m :: rest =>
        if m.1 < e.1 then some (List.orderedInsert entryLE e rest)
        else some (m :: rest)

/-- `StockAnalyzer.topk_stocks`: the stream is the `(ticker, total_return)`
item sequence; the result keeps the heap entry shape `(total_return, ticker)`
and is sorted descending, mirroring `sorted(min_heap, reverse=True)`. -/
def topk_stocks (stream : List (String × ℚ)) (k : ℕ) : Option (List Entry) :=
  (stream.foldlM (fun h p => topkStep k h (p.2, p.1)) []).map
    (fun h => List.insertionSort entryGE h)

/-- One loop iteration of `StockAnalyzer.leastk_stocks`; the pushed entry is
`(-total_return, ticker)` and the eviction test is
`total_return < -max_heap[0][0]`. -/
def leastkStep (k : ℕ) (h : List Entry) (r : ℚ) (t : String) : Option (List Entry) :=
  if h.length < k then
    some (List.orderedInsert entryLE (-r, t) h)
  else
    match h with
    | [] => none
    | m :: rest =>
        if r < -m.1 then some (List.orderedInsert entryLE (-r, t) rest)
        else some (m :: rest)

/-- `StockAnalyzer.leastk_stocks`: negated scores are pushed, then the result
list `[(-v, t) for (v, t) in max_heap]` is sorted ascending. -/
def leastk_stocks (stream : List (String × ℚ)) (k : ℕ) : Option (List Entry) :=
  (stream.foldlM (fun h p => leastkStep k h p.2 p.1) []).map
    (fun h => List.insertionSort entryLE (h.map (fun e => (-e.1, e.2))))

/-! ## Correlation matrix engine (src/analysis/correlation_calculator.py)

A pandas correlation matrix is a square frame whose row and column labels are
both the ticker list; `m[c]` is the column `c`, a series mapping each row
label `r` to the value at row `r`, column `c`.  The numeric values of
`DataFrame.corr()` involve floating-point square roots, which have no exact
rational embedding, so the Pearson kernel itself is kept as an explicit
parameter `kernel`; every theorem below holds for an arbitrary kernel, which
covers in particular the pandas one.  The windowing and error logic of
`calculate_correlation_matrix` is embedded exactly. -/

/-- A ticker-labelled square matrix: shared row/column labels plus the value
at row `r`, column `c`. -/
structure CorrMatrix where
  tickers : List String
  entry : String → String → ℚ

/-- Message of the `ValueError` raised when the window exceeds the rows. -/
def insufficientDataMsg : String := "Requested more days than available"

/-- Message of the `ValueError` raised on a ticker missing from the matrix. -/
def unknownTickerMsg : String := "Ticker not found in correlation matrix"

/-- `CorrelationCalculator.calculate_correlation_matrix`: raise when
`n_days > len(returns_df)`, otherwise apply the correlation kernel to
`returns_df.tail(n_days)`, i.e. to the trailing `n_days` rows. -/
def calculate_correlation_matrix {α : Type} (kernel : List α → CorrMatrix)
    (returns_df : List α) (n_days : ℕ) : Except String CorrMatrix :=
  if returns_df.length < n_days then
    Except.error insufficientDataMsg
  else
    Except.ok (kernel (returns_df.drop (returns_df.length - n_days)))

/-- The column of `m` labelled `ticker` with the entry of `ticker` itself
dropped, in row-label order: `correlation_matrix[ticker].drop(ticker)`. -/
def columnDrop (m : CorrMatrix) (ticker : String) : List (String × ℚ) :=
  (m.tickers.filter (fun s => s != ticker)).map (fun t => (t, m.entry t ticker))

/-- `CorrelationCalculator.get_topk_similar_stocks`: raise on an unknown
ticker, otherwise `nlargest(k)` of the dropped column.  `nlargest` returns the
`k` largest values in descending order keeping first-seen order among ties,
i.e. a stable descending sort followed by a `k`-prefix. -/
def get_topk_similar_stocks (m : CorrMatrix) (ticker : String) (k : ℕ) :
    Except String (List (String × ℚ)) :=
  if ticker ∈ m.tickers then
    Except.ok ((List.insertionSort scoreGE (columnDrop m ticker)).take k)
  else
    Except.error unknownTickerMsg

/-- `CorrelationCalculator.get_similar_stocks_threshold`: raise on an unknown
ticker, otherwise filter the dropped column by `correlations >= threshold`
and sort the survivors by value descending. -/
def get_similar_stocks_threshold (m : CorrMatrix) (ticker : String) (τ : ℚ) :
    Except String (List (String × ℚ)) :=
  if ticker ∈ m.tickers then
    Except.ok (List.insertionSort scoreGE
      ((columnDrop m ticker).filter (fun p => decide (τ ≤ p.2))))
  else
    Except.error unknownTickerMsg

/-- The brute-force query written from the words of the spec, for the
refinement check of the threshold query: take the full matrix row of `t`,
keep every ticker other than `t` whose score is at least the threshold, and
sort descending. -/
def thresholdQueryBySpec (m : CorrMatrix) (ticker : String) (τ : ℚ) :
    List (String × ℚ) :=
  List.insertionSort scoreGE
    ((m.tickers.map (fun t => (t, m.entry t ticker))).filter
      (fun p => p.1 != ticker && decide (τ ≤ p.2)))

/-! ## Sharpe ranking (src/analysis/sharpe_ratio_calculator.py)

A column of the returns frame is a list of optional rationals (`none` models
a NaN cell, removed by `dropna()`).  The annualized volatility
`returns.std() * np.sqrt(annualization_factor)` contains a square root, hence
no exact rational form; it is abstracted into a parameter
`vol : List ℚ → ℚ` standing for that whole expression, and every theorem
holds for an arbitrary `vol`.  The mean, the zero-volatility policy and the
ranking sort are embedded exactly. -/

/-- `Series.dropna()`: remove the missing cells. -/
def dropna (xs : List (Option ℚ)) : List ℚ := xs.filterMap id

/-- `Series.mean()`: sum over length (on the fully rational model). -/
def listMean (xs : List ℚ) : ℚ := xs.sum / (xs.length : ℚ)

/-- Annualized return of a column: `returns.mean() * annualization_factor`. -/
def annualizedReturn (col : List (Option ℚ)) (F : ℚ) : ℚ :=
  listMean (dropna col) * F

/-- Annualized volatility of a column, through the abstract kernel `vol`
standing for `returns.std() * np.sqrt(annualization_factor)`. -/
def annualizedVolatility (vol : List ℚ → ℚ) (col : List (Option ℚ)) : ℚ :=
  vol (dropna col)

/-- The per-ticker body of `SharpeRatioCalculator.calculate_sharpe_ratios`:
score `0.0` when the annualized volatility is exactly zero, otherwise
`(annualized_return - risk_free_rate) / annualized_volatility`. -/
def sharpeOf (vol : List ℚ → ℚ) (col : List (Option ℚ)) (rfr F : ℚ) : ℚ :=
  let returns := dropna col
  let annualized_return := listMean returns * F
  let annualized_volatility := vol returns
  if annualized_volatility = 0 then 0
  else (annualized_return - rfr) / annualized_volatility

/-- `SharpeRatioCalculator.calculate_sharpe_ratios`: one score per ticker of
`ordered_tickers`, in that order; `df` maps a ticker to its returns column. -/
def calculate_sharpe_ratios (vol : List ℚ → ℚ) (df : String → List (Option ℚ))
    (ordered_tickers : List String) (rfr F : ℚ) : List ℚ :=
  ordered_tickers.map (fun t => sharpeOf vol (df t) rfr F)

/-- `SharpeRatioCalculator.get_sharpe_ranking`: zip the tickers with their
scores and sort by score descending (annualization factor defaults to 252). -/
def get_sharpe_ranking (vol : List ℚ → ℚ) (df : String → List (Option ℚ))
    (ordered_tickers : List String) (rfr : ℚ) : List (String × ℚ) :=
  List.insertionSort scoreGE
    (ordered_tickers.zip (calculate_sharpe_ratios vol df ordered_tickers rfr 252))

/-! ## Correlation network graph (src/network/correlation_network.py)

The Python adjacency structure is a dict of dicts
`{source: {target: weight}}`, keyed by the tickers of `ordered_tickers`;
it is modelled as an association list looked up with `List.lookup`, which
matches dict access because dict keys are unique.  The positional matrix
access `correlation_matrix.iloc[i, j]` is modelled by a function on index
pairs. -/

/-- Adjacency structure: source ticker, then its list of
`(target, weight)` pairs in insertion order. -/
abbrev Graph := List (String × List (String × ℚ))

/-- The Python builtin `abs`, written so that the kernel can evaluate it on
concrete rationals. -/
def absQ (x : ℚ) : ℚ := if x < 0 then -x else x

theorem absQ_eq_abs (x : ℚ) : absQ x = |x| := by
  unfold absQ
  split
  · exact (abs_of_neg (by assumption)).symm
  · exact (abs_of_nonneg (le_of_not_lt (by assumption))).symm

/-- `CorrelationNetworkGraph._build_graph`: for every index pair `i < j`,
read `corr = matrix.iloc[i, j]` and add the edge
`graph[tickers[i]][tickers[j]] = abs(corr)` when `abs(corr) > threshold`. -/
def build_graph (m : ℕ → ℕ → ℚ) (ordered_tickers : List String) (threshold : ℚ) :
    Graph :=
  ordered_tickers.enum.map (fun p =>
    (p.2, ordered_tickers.enum.filterMap (fun q =>
      if p.1 < q.1 ∧ threshold < absQ (m p.1 q.1) then some (q.2, absQ (m p.1 q.1))
      else none)))

/-- The adjacency of a source ticker in a graph (empty when absent). -/
def adjacencyOf (g : Graph) (t : String) : List (String × ℚ) :=
  (List.lookup t g).getD []

/-- The heap-push guarded by the `visited` set, shared by both neighbor
loops of `get_similar_stocks`: push the entry `(-weight, name)` and mark
`name` visited unless it is already visited. -/
def pushIfNew (st : List Entry × List String) (w : ℚ) (name : String) :
    List Entry × List String :=
  if name ∈ st.2 then st else ((-w, name) :: st.1, name :: st.2)

/-- The heap contents collected for one ticker by
`CorrelationNetworkGraph.get_similar_stocks`: starting from
`visited = {ticker}`, push every outgoing neighbor of `ticker`, then scan
every source of the graph and push those with an edge into `ticker`.  The
list returned is the multiset of pushed `(-weight, name)` entries. -/
def collectNeighbors (g : Graph) (ticker : String) (adj : List (String × ℚ)) :
    List Entry :=
  (g.foldl (fun st sn =>
      match List.lookup ticker sn.2 with
      | some w => pushIfNew st w sn.1
      | none => st)
    (adj.foldl (fun st e => pushIfNew st e.2 e.1) ([], [ticker]))).1

/-- The per-ticker body of `CorrelationNetworkGraph.get_similar_stocks`: an
unknown ticker yields `[]`; otherwise the heap entries are popped in
ascending `(-weight, name)` order (the names being pairwise distinct, the
pop sequence is the unique sorted arrangement), at most `n` of them, and each
pop is presented as a `(ticker, correlation_strength)` record. -/
def similarFor (g : Graph) (ticker : String) (n : ℕ) : List (String × ℚ) :=
  match List.lookup ticker g with
  | none => []
  | some adj =>
      ((List.insertionSort entryLE (collectNeighbors g ticker adj)).take n).map
        (fun e => (e.2, -e.1))

/-- `CorrelationNetworkGraph.get_similar_stocks`: the result dict, one entry
per input ticker. -/
def get_similar_stocks (g : Graph) (tickers : List String) (n : ℕ) :
    List (String × List (String × ℚ)) :=
  tickers.map (fun t => (t, similarFor g t n))

/-- The ticker names in a similar-stocks result list. -/
def neighborNames (g : Graph) (ticker : String) (n : ℕ) : List String :=
  (similarFor g ticker n).map Prod.fst

/-- The correlation strength used for the averaging step of
`get_common_similar_stocks`: the weight of `ticker → stock` when that edge
exists, else the weight of `stock → ticker` when that edge exists, else `0`.
(For a `ticker` that is not a key of the graph the Python line
`self.graph[ticker]` would raise `KeyError`; the model reads an empty
adjacency there, which the theorems below never rely on.) -/
def common_strength (g : Graph) (stock ticker : String) : ℚ :=
  match List.lookup stock (adjacencyOf g ticker) with
  | some w => w
  | none => (List.lookup ticker (adjacencyOf g stock)).getD 0

/-- The surviving candidate set (`common_stocks`) of
`get_common_similar_stocks`: empty when the first input ticker has no
neighbor list, else the names of the first list filtered by the iterated
intersection, in which a later ticker whose own list is empty is skipped
rather than intersected (`if all_similar[ticker]:`).  (Python iterates the
candidates as a hash set, whose order is unspecified; the model fixes
first-ticker list order, which leaves the returned multiset unchanged.) -/
def commonCandidates (g : Graph) (ordered_tickers : List String)
    (t0 : String) (ts : List String) : List String :=
  if (similarFor g t0 ordered_tickers.length).isEmpty then []
  else ((similarFor g t0 ordered_tickers.length).map Prod.fst).filter (fun s =>
    ts.all (fun t =>
      (similarFor g t ordered_tickers.length).isEmpty ||
        (similarFor g t ordered_tickers.length).any (fun e => e.1 == s)))

/-- `CorrelationNetworkGraph.get_common_similar_stocks`: an empty input list
returns `[]`; otherwise compute `get_similar_stocks` with the unbounded count
`n = len(ordered_tickers)`, intersect as in `commonCandidates`, average
the correlation strengths over all input tickers, and return the top `n`
candidates by average strength descending. -/
def get_common_similar_stocks (g : Graph) (ordered_tickers : List String)
    (tickers : List String) (n : ℕ) : List (String × ℚ) :=
  match tickers with
  | [] => []
  | t0 :: ts =>
      (List.insertionSort scoreGE
        ((commonCandidates g ordered_tickers t0 ts).map (fun stock =>
          (stock,
            ((t0 :: ts).foldl (fun acc t => acc + common_strength g stock t) 0) /
              (((t0 :: ts).length : ℚ)))))).take n

/-- `CorrelationNetworkGraph.get_graph_info`: node count, total directed edge
count, and the construction threshold. -/
def get_graph_info (g : Graph) (ordered_tickers : List String) (threshold : ℚ) :
    ℕ × ℕ × ℚ :=
  (ordered_tickers.length, (g.map (fun sn => sn.2.length)).sum, threshold)

/-! ## Helper lemmas -/

theorem topkStep_isSome (k : ℕ) (hk : 0 < k) (h : List Entry) (e : Entry) :
    ∃ h2, topkStep k h e = some h2 := by
  unfold topkStep
  split
  · exact ⟨_, rfl⟩
  · next hcond =>
      match h with
      | [] => simp only [List.length_nil] at hcond; omega
      | m :: rest =>
          dsimp only
          split
          · exact ⟨_, rfl⟩
          · exact ⟨_, rfl⟩

theorem leastkStep_isSome (k : ℕ) (hk : 0 < k) (h : List Entry) (r : ℚ)
    (t : String) : ∃ h2, leastkStep k h r t = some h2 := by
  unfold leastkStep
  split
  · exact ⟨_, rfl⟩
  · next hcond =>
      match h with
      | [] => simp only [List.length_nil] at hcond; omega
      | m :: rest =>
          dsimp only
          split
          · exact ⟨_, rfl⟩
          · exact ⟨_, rfl⟩

theorem topkFold_total (k : ℕ) (hk : 0 < k) :
    ∀ (stream : List (String × ℚ)) (h0 : List Entry),
      ∃ h1, List.foldlM (fun h p => topkStep k h (p.2, p.1)) h0 stream = some h1 := by
  intro stream
  induction stream with
  | nil => exact fun h0 => ⟨h0, rfl⟩
  | cons p rest ih =>
      intro h0
      obtain ⟨h2, h2eq⟩ := topkStep_isSome k hk h0 (p.2, p.1)
      obtain ⟨h1, h1eq⟩ := ih h2
      exact ⟨h1, by simp [List.foldlM_cons, h2eq, h1eq]⟩

theorem leastkFold_total (k : ℕ) (hk : 0 < k) :
    ∀ (stream : List (String × ℚ)) (h0 : List Entry),
      ∃ h1, List.foldlM (fun h p => leastkStep k h p.2 p.1) h0 stream = some h1 := by
  intro stream
  induction stream with
  | nil => exact fun h0 => ⟨h0, rfl⟩
  | cons p rest ih =>
      intro h0
      obtain ⟨h2, h2eq⟩ := leastkStep_isSome k hk h0 p.2 p.1
      obtain ⟨h1, h1eq⟩ := ih h2
      exact ⟨h1, by simp [List.foldlM_cons, h2eq, h1eq]⟩

theorem topkFold_all (k : ℕ) :
    ∀ (stream : List (String × ℚ)) (h0 : List Entry),
      h0.length + stream.length ≤ k →
      ∃ h1, List.foldlM (fun h p => topkStep k h (p.2, p.1)) h0 stream = some h1 ∧
        List.Perm h1 (h0 ++ stream.map (fun p => (p.2, p.1))) := by
  intro stream
  induction stream with
  | nil => exact fun h0 _ => ⟨h0, rfl, by simp⟩
  | cons p rest ih =>
      intro h0 hlen
      simp only [List.length_cons] at hlen
      have hstep : topkStep k h0 (p.2, p.1) =
          some (List.orderedInsert entryLE (p.2, p.1) h0) := by
        unfold topkStep
        rw [if_pos (by omega)]
      obtain ⟨h1, h1eq, h1perm⟩ := ih (List.orderedInsert entryLE (p.2, p.1) h0)
        (by rw [List.orderedInsert_length]; omega)
      refine ⟨h1, by simp [List.foldlM_cons, hstep, h1eq], ?_⟩
      refine (h1perm.trans
        (((List.perm_orderedInsert entryLE (p.2, p.1) h0).append_right _).trans ?_))
      simpa using
        (@List.perm_middle _ (p.2, p.1) h0 (rest.map (fun p => (p.2, p.1)))).symm

theorem leastkFold_all (k : ℕ) :
    ∀ (stream : List (String × ℚ)) (h0 : List Entry),
      h0.length + stream.length ≤ k →
      ∃ h1, List.foldlM (fun h p => leastkStep k h p.2 p.1) h0 stream = some h1 ∧
        List.Perm h1 (h0 ++ stream.map (fun p => (-p.2, p.1))) := by
  intro stream
  induction stream with
  | nil => exact fun h0 _ => ⟨h0, rfl, by simp⟩
  | cons p rest ih =>
      intro h0 hlen
      simp only [List.length_cons] at hlen
      have hstep : leastkStep k h0 p.2 p.1 =
          some (List.orderedInsert entryLE (-p.2, p.1) h0) := by
        unfold leastkStep
        rw [if_pos (by omega)]
      obtain ⟨h1, h1eq, h1perm⟩ := ih (List.orderedInsert entryLE (-p.2, p.1) h0)
        (by rw [List.orderedInsert_length]; omega)
      refine ⟨h1, by simp [List.foldlM_cons, hstep, h1eq], ?_⟩
      refine (h1perm.trans
        (((List.perm_orderedInsert entryLE (-p.2, p.1) h0).append_right _).trans ?_))
      simpa using
        (@List.perm_middle _ (-p.2, p.1) h0 (rest.map (fun p => (-p.2, p.1)))).symm

/-! ## Claims -/

/-- C1.  The bounded-heap selection on the stream of the spec example,
scores AAPL 5, MSFT 3, GOOG 8, AMZN 1 with k = 2.  The two best-scoring
items are found, but `topk_stocks` returns the raw heap tuples
`(total_return, ticker)` — here `[(8, "GOOG"), (5, "AAPL")]` — whereas the
claim, the spec example and the docstring of the function itself present the
result as `(ticker, score)` pairs `[("GOOG", 8), ("AAPL", 5)]`. -/
theorem c1_topk_returns_score_ticker_tuples :
    topk_stocks [("AAPL", 5), ("MSFT", 3), ("GOOG", 8), ("AMZN", 1)] 2 =
      some [(8, "GOOG"), (5, "AAPL")] := by decide

/-- C4 (amended).  `topk_stocks` and `leastk_stocks` complete without error
whenever `k ≥ 1` or the stream is empty; when `k ≥ N` the result is all `N`
items as `(score, ticker)` pairs, fully sorted (descending for top-k,
ascending for least-k); an empty stream gives an empty result; but when
`k = 0` and the stream is non-empty, both functions hit `min_heap[0]` on an
empty heap and raise `IndexError` instead of returning an empty list. -/
theorem c4_ranker_edge_cases (stream : List (String × ℚ)) (k : ℕ) :
    (0 < k →
      (∃ r, topk_stocks stream k = some r) ∧
      (∃ r, leastk_stocks stream k = some r))
  ∧ (stream.length ≤ k →
      topk_stocks stream k =
        some (List.insertionSort entryGE (stream.map (fun p => (p.2, p.1)))) ∧
      leastk_stocks stream k =
        some (List.insertionSort entryLE (stream.map (fun p => (p.2, p.1)))))
  ∧ (topk_stocks [] k = some [] ∧ leastk_stocks [] k = some [])
  ∧ (stream ≠ [] → topk_stocks stream 0 = none ∧ leastk_stocks stream 0 = none) := by
  refine ⟨?_, ?_, ?_, ?_⟩
  · intro hk
    constructor
    · obtain ⟨h1, heq⟩ := topkFold_total k hk stream []
      exact ⟨_, by unfold topk_stocks; rw [heq]; rfl⟩
    · obtain ⟨h1, heq⟩ := leastkFold_total k hk stream []
      exact ⟨_, by unfold leastk_stocks; rw [heq]; rfl⟩
  · intro hlen
    constructor
    · obtain ⟨h1, heq, hperm⟩ := topkFold_all k stream [] (by simpa using hlen)
      have hperm' : List.Perm h1 (stream.map (fun p => (p.2, p.1))) := by
        simpa using hperm
      unfold topk_stocks
      rw [heq]
      refine congrArg some (List.eq_of_perm_of_sorted (r := entryGE) ?_ ?_ ?_)
      · exact (List.perm_insertionSort entryGE h1).trans
          (hperm'.trans (List.perm_insertionSort entryGE _).symm)
      · exact List.sorted_insertionSort entryGE h1
      · exact List.sorted_insertionSort entryGE _
    · obtain ⟨h1, heq, hperm⟩ := leastkFold_all k stream [] (by simpa using hlen)
      have hperm' : List.Perm (h1.map (fun e => (-e.1, e.2)))
          (stream.map (fun p => (p.2, p.1))) := by
        have h2 := hperm.map (fun e : Entry => (-e.1, e.2))
        simp only [List.nil_append, List.map_map] at h2
        refine h2.trans ?_
        have : ((fun e : Entry => (-e.1, e.2)) ∘ fun p : String × ℚ => (-p.2, p.1)) =
            fun p : String × ℚ => (p.2, p.1) := by
          funext p
          simp
        rw [this]
      unfold leastk_stocks
      rw [heq]
      refine congrArg some (List.eq_of_perm_of_sorted (r := entryLE) ?_ ?_ ?_)
      · exact (List.perm_insertionSort entryLE _).trans
          (hperm'.trans (List.perm_insertionSort entryLE _).symm)
      · exact List.sorted_insertionSort entryLE _
      · exact List.sorted_insertionSort entryLE _
  · exact ⟨rfl, rfl⟩
  · intro hne
    match stream with
    | [] => exact absurd rfl hne
    | p :: rest => exact ⟨rfl, rfl⟩

/-- C4, counterexample to the claim as stated: with `k = 0` and the
one-item stream `[("A", 1)]` the code raises `IndexError` (the model
returns `none`) for both rankers, instead of returning an empty result. -/
theorem c4_counterexample :
    topk_stocks [("A", 1)] 0 = none ∧ leastk_stocks [("A", 1)] 0 = none := by
  exact ⟨rfl, rfl⟩

/-- C4, witness: the amended theorem applied to the stream
`[("A", 2), ("B", 1)]` with `k = 5 ≥ N = 2` and, for the error case, to the
same stream with `k = 0`. -/
theorem c4_witness :
    topk_stocks [("A", 2), ("B", 1)] 5 = some [(2, "A"), (1, "B")] ∧
    leastk_stocks [("A", 2), ("B", 1)] 5 = some [(1, "B"), (2, "A")] ∧
    topk_stocks [("A", 2), ("B", 1)] 0 = none := by
  have h1 := (c4_ranker_edge_cases [("A", 2), ("B", 1)] 5).2.1 (by decide)
  have h2 := (c4_ranker_edge_cases [("A", 2), ("B", 1)] 0).2.2.2 (by decide)
  exact ⟨h1.1.trans (by decide), h1.2.trans (by decide), h2.1⟩

/-- C6.  `calculate_correlation_matrix` fails with the insufficient-data
error exactly when the requested window exceeds the available row count, and
otherwise returns normally the correlation kernel applied to precisely the
trailing `n_days` rows (a window of length exactly `n_days`).  The Pearson
kernel itself is a parameter, so this holds for the pandas kernel in
particular. -/
theorem c6_window_and_error {α : Type} (kernel : List α → CorrMatrix)
    (returns_df : List α) (n_days : ℕ) :
    (calculate_correlation_matrix kernel returns_df n_days =
        Except.error insufficientDataMsg ↔ returns_df.length < n_days)
  ∧ (n_days ≤ returns_df.length →
      calculate_correlation_matrix kernel returns_df n_days =
        Except.ok (kernel (returns_df.drop (returns_df.length - n_days))) ∧
      (returns_df.drop (returns_df.length - n_days)).length = n_days) := by
  constructor
  · constructor
    · intro heq
      by_contra hnot
      unfold calculate_correlation_matrix at heq
      rw [if_neg hnot] at heq
      exact Except.noConfusion heq
    · intro hlt
      unfold calculate_correlation_matrix
      rw [if_pos hlt]
  · intro hle
    unfold calculate_correlation_matrix
    rw [if_neg (by omega)]
    exact ⟨rfl, by rw [List.length_drop]; omega⟩

/-- Trivial correlation kernel used to instantiate the window theorem. -/
def kernelC6 : List Unit → CorrMatrix := fun _ => ⟨[], fun _ _ => 0⟩

/-- C6, witness: three rows with a window of two give the kernel of the last
two rows; one row with a window of two raises. -/
theorem c6_witness :
    calculate_correlation_matrix kernelC6 [(), (), ()] 2 =
      Except.ok (kernelC6 [(), ()]) ∧
    calculate_correlation_matrix kernelC6 [()] 2 =
      Except.error insufficientDataMsg := by
  constructor
  · exact ((c6_window_and_error kernelC6 [(), (), ()] 2).2 (by decide)).1
  · exact (c6_window_and_error kernelC6 [()] 2).1.mpr (by decide)

/-- C5.  Strict matrix queries versus lenient graph queries: a ticker absent
from the columns of a correlation matrix makes `get_topk_similar_stocks`
raise the unknown-ticker error, while a ticker absent from the keys of a
built graph is mapped by `get_similar_stocks` to an empty neighbor list
without failing. -/
theorem c5_strict_matrix_lenient_graph (m : CorrMatrix) (ticker : String)
    (k : ℕ) (g : Graph) (t2 : String) (tickers2 : List String) (n : ℕ)
    (hm : ticker ∉ m.tickers) (hg : List.lookup t2 g = none)
    (ht2 : t2 ∈ tickers2) :
    get_topk_similar_stocks m ticker k = Except.error unknownTickerMsg ∧
    similarFor g t2 n = [] ∧
    (t2, ([] : List (String × ℚ))) ∈ get_similar_stocks g tickers2 n := by
  have hsim : similarFor g t2 n = [] := by
    unfold similarFor
    rw [hg]
  refine ⟨?_, hsim, ?_⟩
  · unfold get_topk_similar_stocks
    rw [if_neg hm]
  · unfold get_similar_stocks
    exact List.mem_map.mpr ⟨t2, ht2, by rw [hsim]⟩

/-- Matrix with a single known ticker, for the strictness witness. -/
def mC5 : CorrMatrix := ⟨["A"], fun _ _ => 1⟩

/-- One-node graph without edges, for the leniency witness. -/
def gC5 : Graph := [("A", [])]

/-- C5, witness: querying the unknown ticker B strictly raises; querying it
on the graph yields an empty neighbor list entry. -/
theorem c5_witness :
    get_topk_similar_stocks mC5 "B" 3 = Except.error unknownTickerMsg ∧
    similarFor gC5 "B" 5 = [] ∧
    ("B", ([] : List (String × ℚ))) ∈ get_similar_stocks gC5 ["B"] 5 :=
  c5_strict_matrix_lenient_graph mC5 "B" 3 gC5 "B" ["B"] 5
    (by decide) (by decide) (by decide)

/-- C7.  For a ticker present in the matrix, `get_similar_stocks_threshold`
returns exactly the brute-force query written from the spec (filter the full
matrix row by score at least the threshold, excluding the ticker itself,
then sort descending); an entry `(t, w)` is in that result exactly when `t`
is a matrix ticker other than the queried one, `w` is its correlation with
the queried ticker, and `w ≥ τ`; and the result is sorted descending by
score. -/
theorem c7_threshold_query (m : CorrMatrix) (ticker : String) (τ : ℚ)
    (hm : ticker ∈ m.tickers) :
    get_similar_stocks_threshold m ticker τ =
      Except.ok (thresholdQueryBySpec m ticker τ) ∧
    (∀ t w, (t, w) ∈ thresholdQueryBySpec m ticker τ ↔
      (t ∈ m.tickers ∧ t ≠ ticker ∧ w = m.entry t ticker ∧ τ ≤ w)) ∧
    List.Sorted scoreGE (thresholdQueryBySpec m ticker τ) := by
  refine ⟨?_, ?_, List.sorted_insertionSort scoreGE _⟩
  · unfold get_similar_stocks_threshold thresholdQueryBySpec columnDrop
    rw [if_pos hm]
    congr 1
    rw [List.filter_map, List.filter_map, List.filter_filter]
    refine congrArg (List.insertionSort scoreGE)
      (congrArg (List.map (fun t => (t, m.entry t ticker))) ?_)
    apply List.filter_congr
    intro a _
    simp only [Function.comp_apply]
    exact Bool.and_comm _ _
  · intro t w
    unfold thresholdQueryBySpec
    rw [(List.perm_insertionSort scoreGE _).mem_iff]
    simp only [List.mem_filter, List.mem_map, Bool.and_eq_true, bne_iff_ne,
      ne_eq, decide_eq_true_eq]
    constructor
    · rintro ⟨⟨a, ha, heq⟩, hne, hτ⟩
      cases heq
      exact ⟨ha, hne, rfl, hτ⟩
    · rintro ⟨ht, hne, rfl, hτ⟩
      exact ⟨⟨t, ht, rfl⟩, hne, hτ⟩

/-- Three-ticker matrix where only A and B correlate, for the threshold
witness. -/
def mC7 : CorrMatrix :=
  ⟨["A", "B", "C"], fun r c =>
    if r = c then 1
    else if (r = "A" ∧ c = "B") ∨ (r = "B" ∧ c = "A") then 1
    else 0⟩

/-- C7, witness: the threshold query for A at threshold 1 keeps exactly B. -/
theorem c7_witness :
    get_similar_stocks_threshold mC7 "A" 1 = Except.ok [("B", 1)] ∧
    ("B", (1 : ℚ)) ∈ thresholdQueryBySpec mC7 "A" 1 := by
  have h := c7_threshold_query mC7 "A" 1 (by decide)
  exact ⟨h.1.trans (congrArg Except.ok (by decide)), (h.2.1 "B" 1).mpr (by decide)⟩

theorem lookup_enumFrom_map {β : Type} (f : ℕ × String → β) :
    ∀ (l : List String), l.Nodup → ∀ (s i : ℕ) (hi : i < l.length),
      List.lookup l[i] ((List.enumFrom s l).map (fun p => (p.2, f p))) =
        some (f (s + i, l[i])) := by
  intro l
  induction l with
  | nil => intro _ s i hi; simp at hi
  | cons a rest ih =>
      intro hnd s i hi
      obtain ⟨ha, hrest⟩ := List.nodup_cons.mp hnd
      match i with
      | 0 =>
          simp [List.enumFrom_cons, List.lookup]
      | i + 1 =>
          have hi' : i < rest.length := by
            simpa using Nat.lt_of_succ_lt_succ (by simpa using hi)
          have hgetEq : (a :: rest)[i + 1] = rest[i] := List.getElem_cons_succ ..
          have hne : (rest[i] == a) = false := by
            refine beq_eq_false_iff_ne.mpr ?_
            intro hcontra
            exact ha (hcontra ▸ List.getElem_mem hi')
          rw [List.enumFrom_cons, List.map_cons, hgetEq]
          rw [show s + (i + 1) = (s + 1) + i by omega]
          rw [← ih hrest (s + 1) i hi']
          simp [List.lookup, hne]

theorem lookup_enum_map {β : Type} (f : ℕ × String → β) (l : List String)
    (hnd : l.Nodup) (i : ℕ) (hi : i < l.length) :
    List.lookup l[i] (l.enum.map (fun p => (p.2, f p))) = some (f (i, l[i])) := by
  simpa using lookup_enumFrom_map f l hnd 0 i hi

/-- C2.  In the built graph, the adjacency of `tickers[i]` contains
`(tickers[j], w)` exactly when `i < j`, the absolute correlation
`|matrix.iloc[i, j]|` strictly exceeds the threshold, and `w` is that
absolute correlation.  In particular there is never an edge with source
index at least the target index (no self-loops, no reverse edges), for any
threshold. -/
theorem c2_graph_edges (m : ℕ → ℕ → ℚ) (tickers : List String) (τ : ℚ)
    (hnd : tickers.Nodup) (i j : ℕ) (hi : i < tickers.length)
    (hj : j < tickers.length) (w : ℚ) :
    (tickers[j], w) ∈ adjacencyOf (build_graph m tickers τ) tickers[i] ↔
      (i < j ∧ τ < absQ (m i j) ∧ w = absQ (m i j)) := by
  have hadj : adjacencyOf (build_graph m tickers τ) tickers[i] =
      tickers.enum.filterMap (fun q =>
        if i < q.1 ∧ τ < absQ (m i q.1) then some (q.2, absQ (m i q.1))
        else none) := by
    unfold adjacencyOf build_graph
    rw [lookup_enum_map _ tickers hnd i hi]
    rfl
  rw [hadj, List.mem_filterMap]
  constructor
  · rintro ⟨q, hq, hsome⟩
    by_cases hc : i < q.1 ∧ τ < absQ (m i q.1)
    · rw [if_pos hc] at hsome
      have hpair := Option.some.inj hsome
      have h2 : q.2 = tickers[j] := congrArg Prod.fst hpair
      have hw : w = absQ (m i q.1) := (congrArg Prod.snd hpair).symm
      obtain ⟨hlt, hget⟩ :=
        List.getElem?_eq_some_iff.mp (List.mem_enum_iff_getElem?.mp hq)
      have hqj : q.1 = j := by
        refine (@List.Nodup.getElem_inj_iff _ _ hnd _ hlt _ hj).mp ?_
        rw [hget]
        exact h2
      rw [hqj] at hc hw
      exact ⟨hc.1, hc.2, hw⟩
    · rw [if_neg hc] at hsome
      exact Option.noConfusion hsome
  · rintro ⟨hij, hτ, rfl⟩
    refine ⟨(j, tickers[j]), ?_, ?_⟩
    · exact List.mem_enum_iff_getElem?.mpr (List.getElem?_eq_getElem hj)
    · rw [if_pos ⟨hij, hτ⟩]

/-- Two-ticker correlation matrix with full off-diagonal correlation, for
the edge witness. -/
def mC2 : ℕ → ℕ → ℚ := fun i j => if i = j then 1 else -1

/-- C2, witness: with tickers `[A, B]` and threshold 0 the edge `A → B` is
present with weight `|-1| = 1`, and no edge `B → A` or `A → A` exists. -/
theorem c2_witness :
    ("B", (1 : ℚ)) ∈ adjacencyOf (build_graph mC2 ["A", "B"] 0) "A" ∧
    (∀ w : ℚ, ("A", w) ∉ adjacencyOf (build_graph mC2 ["A", "B"] 0) "B") ∧
    (∀ w : ℚ, ("A", w) ∉ adjacencyOf (build_graph mC2 ["A", "B"] 0) "A") := by
  refine ⟨?_, ?_, ?_⟩
  · exact (c2_graph_edges mC2 ["A", "B"] 0 (by decide) 0 1 (by decide) (by decide)
      1).mpr (by decide)
  · intro w
    intro hmem
    have h := (c2_graph_edges mC2 ["A", "B"] 0 (by decide) 1 0 (by decide) (by decide)
      w).mp hmem
    omega
  · intro w
    intro hmem
    have h := (c2_graph_edges mC2 ["A", "B"] 0 (by decide) 0 0 (by decide) (by decide)
      w).mp hmem
    omega

theorem zip_self_map {β : Type} (f : String → β) :
    ∀ l : List String, l.zip (l.map f) = l.map (fun a => (a, f a)) := by
  intro l
  induction l with
  | nil => rfl
  | cons a rest ih => simp [ih]

/-- C8.  The Sharpe score of a ticker is exactly `0.0` when the annualized
volatility is exactly zero, and `(annualizedReturn - riskFreeRate) /
annualizedVolatility` otherwise; and `get_sharpe_ranking` returns all
tickers, each paired with its Sharpe score, sorted descending by score
(stated as: the ranking is a permutation of the ticker-score pairing and is
sorted).  The volatility kernel (pandas `std` times a square root) is a
parameter, so this holds for the pandas kernel in particular. -/
theorem c8_sharpe_policy_and_ranking (vol : List ℚ → ℚ)
    (df : String → List (Option ℚ)) (ordered_tickers : List String) (rfr : ℚ) :
    (∀ t, sharpeOf vol (df t) rfr 252 =
      if annualizedVolatility vol (df t) = 0 then 0
      else (annualizedReturn (df t) 252 - rfr) / annualizedVolatility vol (df t))
  ∧ List.Perm (get_sharpe_ranking vol df ordered_tickers rfr)
      (ordered_tickers.map (fun t => (t, sharpeOf vol (df t) rfr 252)))
  ∧ List.Sorted scoreGE (get_sharpe_ranking vol df ordered_tickers rfr) := by
  refine ⟨fun t => rfl, ?_, List.sorted_insertionSort scoreGE _⟩
  unfold get_sharpe_ranking calculate_sharpe_ratios
  rw [zip_self_map]
  exact List.perm_insertionSort scoreGE _

/-- C9.  `calculate_sharpe_ratios` returns exactly one score per ticker of
`ordered_tickers`, in the same order: the result has the same length and its
i-th element is the Sharpe score of the i-th ticker. -/
theorem c9_sharpe_scores_aligned (vol : List ℚ → ℚ)
    (df : String → List (Option ℚ)) (ordered_tickers : List String)
    (rfr F : ℚ) :
    (calculate_sharpe_ratios vol df ordered_tickers rfr F).length =
      ordered_tickers.length
  ∧ ∀ (i : ℕ) (t : String), ordered_tickers[i]? = some t →
      (calculate_sharpe_ratios vol df ordered_tickers rfr F)[i]? =
        some (sharpeOf vol (df t) rfr F) := by
  constructor
  · exact List.length_map _ _
  · intro i t ht
    unfold calculate_sharpe_ratios
    rw [List.getElem?_map, ht]
    rfl

/-- C9, witness: two tickers with empty columns and the zero volatility
kernel give two scores, the first being the Sharpe score of ticker A. -/
theorem c9_witness :
    (calculate_sharpe_ratios (fun _ => 0) (fun _ => []) ["A", "B"] 0 252).length
      = 2 ∧
    (calculate_sharpe_ratios (fun _ => 0) (fun _ => []) ["A", "B"] 0 252)[0]? =
      some (sharpeOf (fun _ => 0) [] 0 252) := by
  have h := c9_sharpe_scores_aligned (fun _ => 0) (fun _ => []) ["A", "B"] 0 252
  exact ⟨h.1, h.2 0 "A" rfl⟩

theorem foldl_preserve {σ β : Type} (P : σ → Prop) (f : σ → β → σ)
    (hf : ∀ st b, P st → P (f st b)) :
    ∀ (l : List β) (st : σ), P st → P (l.foldl f st) := by
  intro l
  induction l with
  | nil => exact fun st h => h
  | cons b rest ih => exact fun st h => ih _ (hf st b h)

theorem pushIfNew_preserve (ticker : String) (w : ℚ) (name : String)
    (st : List Entry × List String)
    (h : ticker ∈ st.2 ∧ ∀ e ∈ st.1, e.2 ≠ ticker) :
    ticker ∈ (pushIfNew st w name).2 ∧
      ∀ e ∈ (pushIfNew st w name).1, e.2 ≠ ticker := by
  unfold pushIfNew
  split
  · exact h
  · next hnotin =>
      refine ⟨List.mem_cons_of_mem _ h.1, ?_⟩
      intro e he
      rcases List.mem_cons.mp he with rfl | he'
      · intro hcontra
        apply hnotin
        have hname : name = ticker := hcontra
        rw [hname]
        exact h.1
      · exact h.2 e he'

theorem collectNeighbors_no_self (g : Graph) (ticker : String)
    (adj : List (String × ℚ)) :
    ∀ e ∈ collectNeighbors g ticker adj, e.2 ≠ ticker := by
  have hstep : ∀ (st : List Entry × List String) (sn : String × List (String × ℚ)),
      (ticker ∈ st.2 ∧ ∀ e ∈ st.1, e.2 ≠ ticker) →
      (ticker ∈ (match List.lookup ticker sn.2 with
          | some w => pushIfNew st w sn.1
          | none => st).2 ∧
        ∀ e ∈ (match List.lookup ticker sn.2 with
          | some w => pushIfNew st w sn.1
          | none => st).1, e.2 ≠ ticker) := by
    intro st sn hp
    cases hlk : List.lookup ticker sn.2 with
    | none => simpa [hlk] using hp
    | some w => simpa [hlk] using pushIfNew_preserve ticker w sn.1 st hp
  have hinner := foldl_preserve
    (fun st : List Entry × List String =>
      ticker ∈ st.2 ∧ ∀ e ∈ st.1, e.2 ≠ ticker)
    (fun st e => pushIfNew st e.2 e.1)
    (fun st e hp => pushIfNew_preserve ticker e.2 e.1 st hp)
    adj ([], [ticker]) ⟨by simp, by simp⟩
  have houter := foldl_preserve
    (fun st : List Entry × List String =>
      ticker ∈ st.2 ∧ ∀ e ∈ st.1, e.2 ≠ ticker)
    (fun st sn => match List.lookup ticker sn.2 with
      | some w => pushIfNew st w sn.1
      | none => st)
    hstep g _ hinner
  unfold collectNeighbors
  exact houter.2

/-- C10.  `get_similar_stocks` produces an entry for every input ticker, and
no neighbor list of a ticker ever contains the ticker itself (the `visited`
set is seeded with the ticker before any heap push). -/
theorem c10_similar_stocks_invariants (g : Graph) (tickers : List String)
    (n : ℕ) (t : String) (ht : t ∈ tickers) :
    (t, similarFor g t n) ∈ get_similar_stocks g tickers n ∧
    ∀ w, (t, w) ∉ similarFor g t n := by
  constructor
  · exact List.mem_map.mpr ⟨t, ht, rfl⟩
  · intro w hw
    unfold similarFor at hw
    cases hadj : List.lookup t g with
    | none => rw [hadj] at hw; simp at hw
    | some adj =>
        rw [hadj] at hw
        obtain ⟨e, he, heq⟩ := List.mem_map.mp hw
        have he2 : e ∈ collectNeighbors g t adj :=
          (List.perm_insertionSort entryLE _).mem_iff.mp
            (List.take_subset n _ he)
        exact collectNeighbors_no_self g t adj e he2 (congrArg Prod.fst heq)

/-- One-edge graph for the neighbor-query invariants witness. -/
def gC10 : Graph := [("A", [("B", 2)]), ("B", [])]

/-- C10, witness: the query for A and B lists both tickers, and the
neighbor list of A, namely `[("B", 2)]`, does not contain A itself. -/
theorem c10_witness :
    ("A", similarFor gC10 "A" 5) ∈ get_similar_stocks gC10 ["A", "B"] 5 ∧
    ∀ w, ("A", w) ∉ similarFor gC10 "A" 5 :=
  c10_similar_stocks_invariants gC10 ["A", "B"] 5 "A" (by decide)

/-- C3 (amended).  `get_common_similar_stocks` of the empty list is empty;
and every stock in a non-empty query belongs to the neighbor names of the
FIRST input ticker (computed with the unbounded count), and to the neighbor
names of every LATER input ticker whose own neighbor list is non-empty —
later tickers with an empty neighbor list are skipped by the intersection
loop, not intersected, so candidates need not be neighbors of those. -/
theorem c3_common_neighbors (g : Graph) (ordered_tickers : List String)
    (tickers : List String) (n : ℕ) :
    get_common_similar_stocks g ordered_tickers [] n = [] ∧
    ∀ (t0 : String) (ts : List String) (stock : String) (w : ℚ),
      tickers = t0 :: ts →
      (stock, w) ∈ get_common_similar_stocks g ordered_tickers tickers n →
      (stock ∈ neighborNames g t0 ordered_tickers.length ∧
        ∀ t ∈ ts, similarFor g t ordered_tickers.length ≠ [] →
          stock ∈ neighborNames g t ordered_tickers.length) := by
  refine ⟨rfl, ?_⟩
  rintro t0 ts stock w rfl hmem
  unfold get_common_similar_stocks at hmem
  have hst : (stock, w) ∈ (commonCandidates g ordered_tickers t0 ts).map
      (fun stock =>
        (stock,
          ((t0 :: ts).foldl (fun acc t => acc + common_strength g stock t) 0) /
            (((t0 :: ts).length : ℚ)))) :=
    (List.perm_insertionSort scoreGE _).mem_iff.mp (List.take_subset n _ hmem)
  obtain ⟨s, hs, heq⟩ := List.mem_map.mp hst
  cases heq
  unfold commonCandidates at hs
  by_cases hfe : (similarFor g t0 ordered_tickers.length).isEmpty
  · rw [if_pos hfe] at hs
    exact absurd hs (List.not_mem_nil _)
  · rw [if_neg hfe] at hs
    obtain ⟨hfirst, hpred⟩ := List.mem_filter.mp hs
    refine ⟨hfirst, ?_⟩
    intro t htmem htne
    have hall := List.all_eq_true.mp hpred t htmem
    rcases Bool.or_eq_true .. |>.mp hall with hemp | hany
    · exact absurd (List.isEmpty_iff.mp hemp) htne
    · obtain ⟨e, he, hbeq⟩ := List.any_eq_true.mp hany
      have hename : e.1 = stock := by simpa using hbeq
      unfold neighborNames
      exact List.mem_map.mpr ⟨e, he, hename⟩

/-- Correlation matrix (by index) where only the pair (0, 1) correlates. -/
def mC3 : ℕ → ℕ → ℚ := fun i j =>
  if i = j then 1
  else if (i = 0 ∧ j = 1) ∨ (i = 1 ∧ j = 0) then 1
  else 0

/-- Graph built from `mC3` over tickers A, B, C at threshold 0: its only
edge is A → B; C is isolated. -/
def gC3 : Graph := build_graph mC3 ["A", "B", "C"] 0

/-- C3, counterexample to the claim as stated: for the built graph `gC3`
and input list `[A, C]`, the result contains the stock B even though B is
not in the neighbor set of the input ticker C, whose neighbor list is empty
— the code skips empty neighbor lists instead of intersecting with them, so
the result is not the intersection over ALL input tickers. -/
theorem c3_counterexample :
    (get_common_similar_stocks gC3 ["A", "B", "C"] ["A", "C"] 10).map Prod.fst
      = ["B"] ∧
    similarFor gC3 "C" 3 = [] := by
  constructor
  · decide
  · decide

/-- C3, witness: the amended theorem applied to the built graph `gC3` with
input `[A, C]` (and to the empty input list). -/
theorem c3_witness :
    get_common_similar_stocks gC3 ["A", "B", "C"] [] 10 = [] ∧
    "B" ∈ neighborNames gC3 "A" 3 := by
  refine ⟨(c3_common_neighbors gC3 ["A", "B", "C"] [] 10).1, ?_⟩
  have hmapeq : (get_common_similar_stocks gC3 ["A", "B", "C"] ["A", "C"] 10).map
      Prod.fst = ["B"] := by decide
  have hBmem : "B" ∈ (get_common_similar_stocks gC3 ["A", "B", "C"]
      ["A", "C"] 10).map Prod.fst := by
    rw [hmapeq]
    exact List.mem_singleton.mpr rfl
  obtain ⟨p, hp, hfst⟩ := List.mem_map.mp hBmem
  have h := (c3_common_neighbors gC3 ["A", "B", "C"] ["A", "C"] 10).2 "A" ["C"]
    p.1 p.2 rfl (by simpa using hp)
  rw [hfst] at h
  exact h.1

end SP500
